import Mathlib

set_option maxHeartbeats 1000000

/-!
Verification development for the time-scaled tree visualizer
(`bin/visualize_tree.py`, function `plot_timetree`).

The script's own code (geometry loop, tip-label emission, posterior
markers, axis bounds, loader fallback) is embedded directly.  The tree
model and the two coordinate passes live in the external `baltic`
library that the script calls (`setAbsoluteTime`, `traverse_tree`,
`drawTree`, `treeStats`); those are modelled from the spec
(sections 4.2 and 4.3), as noted on each definition.

Conventions: floats become `ℚ`; a node's optional `posterior` trait is
an `Option ℚ` field; Python `sys.exit(1)` becomes an explicit
`LoadResult.exit` outcome.
-/

namespace BeastViz

/-- Per-node record: `name`, `length` (branch length to the parent,
`none` when absent in the input), the optional `posterior` trait, and
the two derived coordinates `absTime` (baltic `absoluteTime`) and `y`. -/
structure NodeData where
  name : String
  length : Option ℚ
  posterior : Option ℚ
  absTime : ℚ
  y : ℚ
deriving Repr

/-- A rooted tree with ordered children: `node data children`.
Leaves are nodes with an empty child list. -/
inductive BT where
  | node (d : NodeData) (cs : List BT)
deriving Repr

/-- The node's own record. -/
def BT.data : BT → NodeData
  | BT.node d _ => d

/-- The node's ordered children. -/
def BT.children : BT → List BT
  | BT.node _ cs => cs

/-- `absoluteTime` of a node. -/
def absTimeOf (t : BT) : ℚ := t.data.absTime

/-- `y` coordinate of a node. -/
def yOf (t : BT) : ℚ := t.data.y

/-- Branch length with `None` read as 0 (spec 4.2: missing length is 0). -/
def lenOf (t : BT) : ℚ := t.data.length.getD 0

/-- Python `max` over a list of rationals (0 on the empty list, which
never occurs in use). -/
def maxQ : List ℚ → ℚ
  | [] => 0
  | x :: xs => xs.foldl max x

/-- Python `min` over a list of rationals (0 on the empty list). -/
def minQ : List ℚ → ℚ
  | [] => 0
  | x :: xs => xs.foldl min x

/-- Arithmetic mean of a list of rationals. -/
def meanQ (l : List ℚ) : ℚ := l.sum / l.length

mutual

/-- Modelled from the spec: baltic's `setAbsoluteTime` pass (called at
line 42 of the script), restricted to the subtree at hand.  `a` is the
absolute time this node receives; each child receives `a` plus its own
branch length, missing lengths counting as 0 (spec 4.2: root cumulative
distance 0, child cumulative = parent + child branch length, anchored
so the most recent tip sits at the caller-specified reference time). -/
def setAbs (a : ℚ) : BT → BT
  | BT.node d cs => BT.node { d with absTime := a } (setAbsList a cs)

/-- Children half of `setAbs`: `a` is the parent's absolute time. -/
def setAbsList (a : ℚ) : List BT → List BT
  | [] => []
  | c :: cs => setAbs (a + lenOf c) c :: setAbsList a cs

end

mutual

/-- Modelled from the spec: cumulative root-to-leaf distances (baltic
node heights over the leaves), offset by `h`, in pre-order. -/
def leafDepths (h : ℚ) : BT → List ℚ
  | BT.node _ [] => [h]
  | BT.node _ (c :: cs) => leafDepthsList h (c :: cs)

/-- Children half of `leafDepths`: `h` is the parent's cumulative distance. -/
def leafDepthsList (h : ℚ) : List BT → List ℚ
  | [] => []
  | c :: cs => leafDepths (h + lenOf c) c ++ leafDepthsList h cs

end

/-- Modelled from the spec: baltic `treeStats()['height']` — the
maximum cumulative root-to-leaf distance (spec 4.2). -/
def treeHeight (t : BT) : ℚ := maxQ (leafDepths 0 t)

/-- Modelled from the spec: baltic `setAbsoluteTime(date)` — every
node's `absoluteTime` becomes `date - treeHeight + cumulative distance`,
so the most recent tip sits exactly at `date`. -/
def setAbsoluteTime (date : ℚ) (t : BT) : BT := setAbs (date - treeHeight t) t

/-- Line 42 of the script: `tree.setAbsoluteTime(tree.treeStats()['height'])`. -/
def timeProp (t : BT) : BT := setAbsoluteTime (treeHeight t) t

mutual

/-- Modelled from the spec: baltic `drawTree` (called at line 56),
vertical layout (spec 4.3).  `s` is the next free leaf slot; a leaf is
assigned slot `s` and the counter advances; an internal node receives
the arithmetic mean of its children's `y`.  Returns the annotated tree
and the updated counter. -/
def drawT (s : ℕ) : BT → BT × ℕ
  | BT.node d [] => (BT.node { d with y := (s : ℚ) } [], s + 1)
  | BT.node d (c :: cs) =>
      let r := drawList s (c :: cs)
      (BT.node { d with y := meanQ (r.1.map yOf) } r.1, r.2)

/-- Children half of `drawT`, threading the slot counter left to right. -/
def drawList (s : ℕ) : List BT → List BT × ℕ
  | [] => ([], s)
  | c :: cs =>
      let rc := drawT s c
      let rs := drawList rc.2 cs
      (rc.1 :: rs.1, rs.2)

end

/-- Vertical-layout pass over the whole tree, counter starting at 0. -/
def drawPass (t : BT) : BT := (drawT 0 t).1

/-- Lines 42 and 55-56 of the script: time propagation followed by the
vertical layout. -/
def pipeline (t : BT) : BT := drawPass (timeProp t)

mutual

/-- baltic `tree.getExternal()`: the leaves, in pre-order. -/
def getExternal : BT → List BT
  | BT.node d [] => [BT.node d []]
  | BT.node _ (c :: cs) => getExternalList (c :: cs)

/-- Children half of `getExternal`. -/
def getExternalList : List BT → List BT
  | [] => []
  | c :: cs => getExternal c ++ getExternalList cs

end

mutual

/-- baltic `tree.getInternal()`: the internal nodes, in pre-order. -/
def getInternal : BT → List BT
  | BT.node _ [] => []
  | BT.node d (c :: cs) => BT.node d (c :: cs) :: getInternalList (c :: cs)

/-- Children half of `getInternal`. -/
def getInternalList : List BT → List BT
  | [] => []
  | c :: cs => getInternal c ++ getInternalList cs

end

mutual

/-- baltic `tree.Objects`: every node, in pre-order. -/
def allNodes : BT → List BT
  | BT.node d cs => BT.node d cs :: allNodesList cs

/-- Children half of `allNodes`. -/
def allNodesList : List BT → List BT
  | [] => []
  | c :: cs => allNodes c ++ allNodesList cs

end

mutual

/-- Number of leaves. -/
def lc : BT → ℕ
  | BT.node _ [] => 1
  | BT.node _ (c :: cs) => lcList (c :: cs)

/-- Children half of `lc`. -/
def lcList : List BT → ℕ
  | [] => 0
  | c :: cs => lc c + lcList cs

end

mutual

/-- Number of nodes. -/
def nc : BT → ℕ
  | BT.node _ cs => 1 + ncList cs

/-- Children half of `nc`. -/
def ncList : List BT → ℕ
  | [] => 0
  | c :: cs => nc c + ncList cs

end

/-- Marker tier: red (`posterior >= 0.95`) or orange (`>= 0.75`). -/
inductive Tier where
  | high
  | medium
deriving Repr, DecidableEq

/-- Drawable primitives produced by the script: horizontal branch
segments, vertical connector segments, tip labels, support markers. -/
inductive Prim where
  | branch (x0 x1 y : ℚ)
  | connector (x y0 y1 : ℚ)
  | tipLabel (x y : ℚ) (text : String)
  | marker (x y : ℚ) (tier : Tier)
deriving Repr

/-- Recognizer for horizontal branch segments. -/
def isBranch : Prim → Bool
  | Prim.branch _ _ _ => true
  | _ => false

/-- Recognizer for vertical connector segments. -/
def isConnector : Prim → Bool
  | Prim.connector _ _ _ => true
  | _ => false

/-- The `y` coordinate a primitive is anchored at. -/
def primY : Prim → ℚ
  | Prim.branch _ _ y => y
  | Prim.connector _ y0 _ => y0
  | Prim.tipLabel _ y _ => y
  | Prim.marker _ y _ => y

/-- `y` coordinates of a list of nodes (`[c.y for c in children]`). -/
def ysOf (cs : List BT) : List ℚ := cs.map yOf

/-- Lines 66-78 of the script, grouped at the parent: for each child a
horizontal branch from the parent's `absoluteTime` to the child's, at
the child's `y`; and, emitted while visiting the parent's first child,
one vertical connector at the parent's `absoluteTime` spanning the
children's `y` values whenever there is more than one child.  `pa` is
the parent's `absoluteTime`. -/
def childSegs (pa : ℚ) (cs : List BT) : List Prim :=
  (cs.map fun c => Prim.branch pa (absTimeOf c) (yOf c)) ++
    (if 1 < cs.length then
      [Prim.connector pa (minQ (ysOf cs)) (maxQ (ysOf cs))] else [])

mutual

/-- The branch/connector loop of lines 62-82 (`for node in tree.Objects:
if node.parent: ...`), re-grouped by parent; each non-root node
contributes its horizontal branch exactly once and each parent's first
child contributes the connector. -/
def prims : BT → List Prim
  | BT.node d cs => childSegs d.absTime cs ++ primsList cs

/-- Children half of `prims`. -/
def primsList : List BT → List Prim
  | [] => []
  | c :: cs => prims c ++ primsList cs

end

/-- One step of Python's stable `sorted(..., key=lambda x: x.y)`:
insert `x` before the first element with a `y` not below its own. -/
def insertY (x : BT) : List BT → List BT
  | [] => [x]
  | b :: bs => if yOf x ≤ yOf b then x :: b :: bs else b :: insertY x bs

/-- Line 85: `sorted(tree.getExternal(), key=lambda x: x.y)`. -/
def sortByY : List BT → List BT
  | [] => []
  | b :: bs => insertY b (sortByY bs)

/-- Line 85: the tips, sorted by `y`. -/
def tipsSorted (t : BT) : List BT := sortByY (getExternal t)

/-- Lines 84-88: one tip label per leaf, emitted in sorted-`y` order,
anchored at the leaf's coordinates and carrying its name. -/
def tipLabels (t : BT) : List Prim :=
  (tipsSorted t).map fun tip => Prim.tipLabel (absTimeOf tip) (yOf tip) tip.data.name

/-- Lines 92-103 for a single internal node: look up the `posterior`
trait; with Python truthiness (`if posterior and posterior >= 0.95`) a
posterior of 0 is falsy, then the 0.95 / 0.75 thresholds pick the tier. -/
def markerOf (n : BT) : List Prim :=
  match n.data.posterior with
  | none => []
  | some p =>
      if p ≠ 0 ∧ (95 : ℚ) / 100 ≤ p then [Prim.marker (absTimeOf n) (yOf n) Tier.high]
      else if p ≠ 0 ∧ (75 : ℚ) / 100 ≤ p then [Prim.marker (absTimeOf n) (yOf n) Tier.medium]
      else []

/-- Lines 91-103: the support markers, over `tree.getInternal()`. -/
def markerPrims (t : BT) : List Prim :=
  ((getInternal t).map markerOf).flatten

/-- Line 106: `min([node.absoluteTime for node in tree.Objects])`. -/
def minTime (t : BT) : ℚ := minQ ((allNodes t).map absTimeOf)

/-- Line 107: `max([node.absoluteTime for node in tree.Objects])`. -/
def maxTime (t : BT) : ℚ := maxQ ((allNodes t).map absTimeOf)

/-- Line 108: `time_range = max_time - min_time`. -/
def timeRange (t : BT) : ℚ := maxTime t - minTime t

/-- Line 112: `ax.set_xlim(min_time - time_range * 0.05, max_time + time_range * 0.3)`. -/
def xlim (t : BT) : ℚ × ℚ :=
  (minTime t - timeRange t * (5 / 100), maxTime t + timeRange t * (30 / 100))

/-- Line 113: `ax.set_ylim(-0.5, len(tips) - 0.5)` with `tips` from line 85. -/
def ylim (t : BT) : ℚ × ℚ :=
  (-(1 / 2 : ℚ), ((tipsSorted t).length : ℚ) - 1 / 2)

/-- Outcome of the loading block: either a tree, or the script printed
the error and called `sys.exit(1)`. -/
inductive LoadResult where
  | ok (t : BT)
  | exit (code : ℕ) (msg : String)
deriving Repr

/-- Lines 30-39: try `bt.loadNexus`, on any failure try `bt.loadNewick`,
and if that also fails print only the Newick error and `sys.exit(1)`.
The two library parsers are external collaborators, so the block is
parametrized by their outcomes. -/
def loadTree (nexus newick : Except String BT) : LoadResult :=
  match nexus with
  | Except.ok t => LoadResult.ok t
  | Except.error _ =>
      match newick with
      | Except.ok t => LoadResult.ok t
      | Except.error e => LoadResult.exit 1 e

mutual

/-- Reset both derived coordinates to 0, keeping name, branch length,
posterior and topology: the tree as constructed, before any layout pass. -/
def scrub : BT → BT
  | BT.node d cs => BT.node ⟨d.name, d.length, d.posterior, 0, 0⟩ (scrubList cs)

/-- Children half of `scrub`. -/
def scrubList : List BT → List BT
  | [] => []
  | c :: cs => scrub c :: scrubList cs

end

mutual

/-- Reset only the `y` coordinate to 0. -/
def scrubY : BT → BT
  | BT.node d cs => BT.node { d with y := 0 } (scrubYList cs)

/-- Children half of `scrubY`. -/
def scrubYList : List BT → List BT
  | [] => []
  | c :: cs => scrubY c :: scrubYList cs

end

mutual

/-- Spec-side (4.2): cumulative root-to-node distances in pre-order —
the root's own cumulative distance is `h`, each child's is its parent's
plus the child's branch length. -/
def specCums (h : ℚ) : BT → List ℚ
  | BT.node _ cs => h :: specCumsList h cs

/-- Children half of `specCums`. -/
def specCumsList (h : ℚ) : List BT → List ℚ
  | [] => []
  | c :: cs => specCums (h + lenOf c) c ++ specCumsList h cs

end

/-- `absoluteTime` of every node in pre-order (`tree.Objects` order). -/
def absTimes (t : BT) : List ℚ := (allNodes t).map absTimeOf

mutual

/-- Spec-side (4.4): for every non-root node `n` with parent `p`, one
`BranchSegment` from `(p.absolute_time, n.vertical_position)` to
`(n.absolute_time, n.vertical_position)` — grouped at the parent, the
emission order being unspecified by the spec. -/
def specBranches : BT → List Prim
  | BT.node d cs =>
      (cs.map fun c => Prim.branch d.absTime (absTimeOf c) (yOf c)) ++ specBranchesList cs

/-- Children half of `specBranches`. -/
def specBranchesList : List BT → List Prim
  | [] => []
  | c :: cs => specBranches c ++ specBranchesList cs

end

/-- Spec-side (4.4): for every internal node with at least two children,
exactly one `ConnectorSegment` at `x` = the node's absolute time,
spanning `y` from the minimum to the maximum vertical position of its
immediate children; internal nodes with a single child emit none. -/
def specConnectors (t : BT) : List Prim :=
  (getInternal t).filterMap fun n =>
    if 2 ≤ n.children.length then
      some (Prim.connector (absTimeOf n) (minQ (ysOf n.children)) (maxQ (ysOf n.children)))
    else none

/-- Spec-side (4.4): marker tiers by the fixed thresholds — `high` when
`posterior ≥ 0.95`, `medium` when `0.75 ≤ posterior < 0.95`, otherwise
no marker; nodes without a `posterior` annotation never produce one. -/
def specMarkerOf (post : Option ℚ) (x y : ℚ) : List Prim :=
  match post with
  | none => []
  | some p =>
      if (95 : ℚ) / 100 ≤ p then [Prim.marker x y Tier.high]
      else if (75 : ℚ) / 100 ≤ p then [Prim.marker x y Tier.medium]
      else []

/-- A two-node tree: root with a single leaf child at branch length 1. -/
def exUnit : BT :=
  BT.node ⟨"r", none, none, 0, 0⟩ [BT.node ⟨"a", some 1, none, 0, 0⟩ []]

/-- A two-node tree whose leaf child has branch length -1. -/
def exNeg : BT :=
  BT.node ⟨"r", none, none, 0, 0⟩ [BT.node ⟨"a", some (-1), none, 0, 0⟩ []]

/-- An internal node carrying `posterior = 0.95`. -/
def exPost95 : BT :=
  BT.node ⟨"n", none, some ((95 : ℚ) / 100), 2, 3⟩ [BT.node ⟨"a", some 1, none, 0, 0⟩ []]

/-- An internal node carrying `posterior = 0.9499`. -/
def exPost9499 : BT :=
  BT.node ⟨"n", none, some ((9499 : ℚ) / 10000), 2, 3⟩ [BT.node ⟨"a", some 1, none, 0, 0⟩ []]

/-- An internal node carrying `posterior = 0.74`. -/
def exPost74 : BT :=
  BT.node ⟨"n", none, some ((74 : ℚ) / 100), 2, 3⟩ [BT.node ⟨"a", some 1, none, 0, 0⟩ []]

mutual

/-- Simultaneous induction for `BT` and lists of `BT`. -/
def BT.ind (P : BT → Prop) (Q : List BT → Prop)
    (h : ∀ d cs, Q cs → P (BT.node d cs)) (hn : Q [])
    (hc : ∀ c cs, P c → Q cs → Q (c :: cs)) : ∀ t : BT, P t
  | BT.node d cs => h d cs (BT.indList P Q h hn hc cs)

/-- List half of `BT.ind`. -/
def BT.indList (P : BT → Prop) (Q : List BT → Prop)
    (h : ∀ d cs, Q cs → P (BT.node d cs)) (hn : Q [])
    (hc : ∀ c cs, P c → Q cs → Q (c :: cs)) : ∀ cs : List BT, Q cs
  | [] => hn
  | c :: cs => hc c cs (BT.ind P Q h hn hc c) (BT.indList P Q h hn hc cs)

end

/-- Both halves of the simultaneous induction at once. -/
def BT.indBoth (P : BT → Prop) (Q : List BT → Prop)
    (h : ∀ d cs, Q cs → P (BT.node d cs)) (hn : Q [])
    (hc : ∀ c cs, P c → Q cs → Q (c :: cs)) : (∀ t : BT, P t) ∧ (∀ cs : List BT, Q cs) :=
  ⟨BT.ind P Q h hn hc, BT.indList P Q h hn hc⟩

theorem markerOf_eq_spec (n : BT) :
    markerOf n = specMarkerOf n.data.posterior (absTimeOf n) (yOf n) := by
  unfold markerOf specMarkerOf
  cases hp : n.data.posterior with
  | none => rfl
  | some p =>
      by_cases h95 : (95 : ℚ) / 100 ≤ p
      · have hp0 : p ≠ 0 := by intro h; rw [h] at h95; norm_num at h95
        simp [h95, hp0]
      · by_cases h75 : (75 : ℚ) / 100 ≤ p
        · have hp0 : p ≠ 0 := by intro h; rw [h] at h75; norm_num at h75
          simp [h95, h75, hp0]
        · simp [h95, h75]

/-- C3: for every internal node, the emitted support marker is exactly
the one the spec's fixed thresholds prescribe: tier `high` iff the node
carries `posterior ≥ 0.95`, tier `medium` iff `0.75 ≤ posterior < 0.95`,
no marker below `0.75` or without a `posterior` annotation; at the
boundaries, `0.95` gives `high`, `0.9499` gives `medium`, `0.74` gives
no marker. -/
theorem C3_support_markers :
    (∀ t : BT, markerPrims t =
      ((getInternal t).map fun n => specMarkerOf n.data.posterior (absTimeOf n) (yOf n)).flatten) ∧
    markerOf exPost95 = [Prim.marker 2 3 Tier.high] ∧
    markerOf exPost9499 = [Prim.marker 2 3 Tier.medium] ∧
    markerOf exPost74 = [] ∧
    (∀ (nm : String) (l : Option ℚ) (a yy : ℚ) (cs : List BT),
      markerOf (BT.node ⟨nm, l, none, a, yy⟩ cs) = []) := by
  refine ⟨fun t => ?_, ?_, ?_, ?_, fun nm l a yy cs => ?_⟩
  · unfold markerPrims
    congr 1
    exact List.map_congr_left fun n _ => markerOf_eq_spec n
  · simp [markerOf, exPost95, BT.data, absTimeOf, yOf]
  · simp [markerOf, exPost9499, BT.data, absTimeOf, yOf]
    norm_num
  · simp [markerOf, exPost74, BT.data, absTimeOf, yOf]
    norm_num
  · rfl

/-- C6 counterexample: when both parser strategies fail, the script does
not surface an aggregated typed failure — it terminates the process with
exit status 1 and reports only the second (Newick) error, the first
(Nexus) error having been discarded by the bare `except`. -/
theorem C6_counterexample :
    loadTree (Except.error "bad nexus") (Except.error "bad newick") =
      LoadResult.exit 1 "bad newick" := rfl

/-- C6 amended: loading tries the ordered strategies Nexus then Newick,
the first success wins; if every strategy fails the script prints only
the final strategy's error and exits the process with status 1, rather
than raising one aggregated typed `MalformedTreeError`. -/
theorem C6_loader_fallback :
    (∀ (t : BT) (nw : Except String BT), loadTree (Except.ok t) nw = LoadResult.ok t) ∧
    (∀ (e : String) (t : BT), loadTree (Except.error e) (Except.ok t) = LoadResult.ok t) ∧
    (∀ e f : String, loadTree (Except.error e) (Except.error f) = LoadResult.exit 1 f) :=
  ⟨fun _ _ => rfl, fun _ _ => rfl, fun _ _ => rfl⟩

/-- C7 counterexample: a negative branch length is not rejected — on the
two-node tree whose leaf has branch length `-1`, time propagation runs
to completion and publishes the full coordinate list `[0, -1]`, where
the claim demands an `InvalidBranchLengthError` abort with no
coordinates published. -/
theorem C7_counterexample : absTimes (timeProp exNeg) = [0, -1] := by
  simp [absTimes, timeProp, setAbsoluteTime, exNeg, treeHeight, leafDepths, leafDepthsList,
    lenOf, BT.data, maxQ, setAbs, setAbsList, allNodes, allNodesList, absTimeOf]

/-- C7 amended: time propagation performs no branch-length validation —
a missing (`None`) branch length is treated exactly as 0, and any
rational branch length `q`, negative included, is propagated
arithmetically into published coordinates with no error. -/
theorem C7_no_length_validation :
    (∀ (a : ℚ) (nm : String) (post : Option ℚ) (a0 y0 : ℚ) (cs rest : List BT),
      (setAbsList a (BT.node ⟨nm, none, post, a0, y0⟩ cs :: rest)).map absTimes =
        (setAbsList a (BT.node ⟨nm, some 0, post, a0, y0⟩ cs :: rest)).map absTimes) ∧
    (∀ (q : ℚ) (nm1 nm2 : String),
      absTimes (timeProp (BT.node ⟨nm1, none, none, 0, 0⟩
        [BT.node ⟨nm2, some q, none, 0, 0⟩ []])) = [0, q]) := by
  constructor
  · intro a nm post a0 y0 cs rest
    simp [setAbsList, lenOf, BT.data, absTimes, allNodes, setAbs, absTimeOf]
  · intro q nm1 nm2
    simp [absTimes, timeProp, setAbsoluteTime, treeHeight, leafDepths, leafDepthsList,
      lenOf, BT.data, maxQ, setAbs, setAbsList, allNodes, allNodesList, absTimeOf]

theorem insertY_length (x : BT) (l : List BT) : (insertY x l).length = l.length + 1 := by
  induction l with
  | nil => rfl
  | cons b bs ih =>
      unfold insertY
      by_cases h : yOf x ≤ yOf b
      · simp [h]
      · simp [h, ih]

theorem sortByY_length (l : List BT) : (sortByY l).length = l.length := by
  induction l with
  | nil => rfl
  | cons b bs ih => simp [sortByY, insertY_length, ih]

theorem getExternal_length :
    (∀ t : BT, (getExternal t).length = lc t) ∧
    (∀ cs : List BT, (getExternalList cs).length = lcList cs) := by
  refine BT.indBoth _ _ ?_ ?_ ?_
  · intro d cs hq
    cases cs with
    | nil => rfl
    | cons c cs => simpa [getExternal, lc] using hq
  · rfl
  · intro c cs hp hq
    simp [getExternalList, lcList, hp, hq]

/-- C8: the axis range handed to the renderer is exactly
`[min(absolute_time) - 0.05 * span, max(absolute_time) + 0.3 * span]`
with the span taken over all nodes, and the vertical extent is exactly
`[-0.5, leaf_count - 0.5]`. -/
theorem C8_axis_bounds (t : BT) :
    xlim t = (minTime t - timeRange t * (5 / 100), maxTime t + timeRange t * (30 / 100)) ∧
    ylim t = (-(1 / 2 : ℚ), (lc t : ℚ) - 1 / 2) := by
  refine ⟨rfl, ?_⟩
  unfold ylim tipsSorted
  rw [sortByY_length, getExternal_length.1]

theorem length_filterMap_countP {α β : Type} (f : α → Option β) (l : List α) :
    (l.filterMap f).length = l.countP fun a => (f a).isSome := by
  induction l with
  | nil => rfl
  | cons a l ih =>
      rw [List.filterMap_cons, List.countP_cons]
      cases h : f a <;> simp [h, ih, Nat.add_comm]

theorem filter_branch_childSegs (pa : ℚ) (cs : List BT) :
    (childSegs pa cs).filter isBranch =
      cs.map fun c => Prim.branch pa (absTimeOf c) (yOf c) := by
  unfold childSegs
  rw [List.filter_append, List.filter_map]
  have h3 : (if 1 < cs.length then
      [Prim.connector pa (minQ (ysOf cs)) (maxQ (ysOf cs))] else []).filter isBranch = [] := by
    split <;> simp [isBranch]
  rw [h3, List.append_nil]
  have h4 : (isBranch ∘ fun c => Prim.branch pa (absTimeOf c) (yOf c)) = fun _ => true := by
    funext c; rfl
  rw [h4, List.filter_true]

theorem filter_connector_childSegs (pa : ℚ) (cs : List BT) :
    (childSegs pa cs).filter isConnector =
      if 1 < cs.length then [Prim.connector pa (minQ (ysOf cs)) (maxQ (ysOf cs))] else [] := by
  unfold childSegs
  rw [List.filter_append, List.filter_map]
  have h2 : (isConnector ∘ fun c => Prim.branch pa (absTimeOf c) (yOf c)) = fun _ => false := by
    funext c; rfl
  rw [h2, List.filter_false, List.map_nil, List.nil_append]
  split <;> simp [isConnector]

theorem prims_filter_branch :
    (∀ t : BT, (prims t).filter isBranch = specBranches t) ∧
    (∀ cs : List BT, (primsList cs).filter isBranch = specBranchesList cs) := by
  refine BT.indBoth _ _ ?_ ?_ ?_
  · intro d cs hq
    rw [prims, specBranches, List.filter_append, filter_branch_childSegs, hq]
  · rfl
  · intro c cs hp hq
    rw [primsList, specBranchesList, List.filter_append, hp, hq]

theorem specBranches_length :
    (∀ t : BT, (specBranches t).length + 1 = nc t) ∧
    (∀ cs : List BT, (specBranchesList cs).length + cs.length = ncList cs) := by
  refine BT.indBoth _ _ ?_ ?_ ?_
  · intro d cs hq
    rw [specBranches, nc]
    simp only [List.length_append, List.length_map]
    omega
  · rfl
  · intro c cs hp hq
    rw [specBranchesList, ncList]
    simp only [List.length_append, List.length_cons]
    omega

/-- C4: the geometry pass emits, for every non-root node `n` with
parent `p`, exactly one horizontal `BranchSegment` from
`(p.absolute_time, n.vertical_position)` to
`(n.absolute_time, n.vertical_position)` — so the branch count is the
node count minus one — and the root emits none, a single-node tree
producing zero `BranchSegment`s. -/
theorem C4_branch_segments :
    (∀ t : BT, (prims t).filter isBranch = specBranches t) ∧
    (∀ t : BT, ((prims t).filter isBranch).length + 1 = nc t) ∧
    (∀ d : NodeData, prims (BT.node d []) = []) := by
  refine ⟨prims_filter_branch.1, fun t => ?_, fun d => rfl⟩
  rw [prims_filter_branch.1 t]
  exact specBranches_length.1 t

/-- The option-valued connector the spec prescribes for one node. -/
def connOf (n : BT) : Option Prim :=
  if 2 ≤ n.children.length then
    some (Prim.connector (absTimeOf n) (minQ (ysOf n.children)) (maxQ (ysOf n.children)))
  else none

theorem specConnectors_eq (t : BT) :
    specConnectors t = (getInternal t).filterMap connOf := rfl

theorem prims_filter_connector :
    (∀ t : BT, (prims t).filter isConnector = (getInternal t).filterMap connOf) ∧
    (∀ cs : List BT, (primsList cs).filter isConnector = (getInternalList cs).filterMap connOf) := by
  refine BT.indBoth _ _ ?_ ?_ ?_
  · intro d cs hq
    cases cs with
    | nil => rfl
    | cons c cs' =>
        rw [prims, List.filter_append, filter_connector_childSegs, hq, getInternal,
          List.filterMap_cons]
        have hconn : connOf (BT.node d (c :: cs')) =
            if 1 < (c :: cs').length then
              some (Prim.connector d.absTime (minQ (ysOf (c :: cs'))) (maxQ (ysOf (c :: cs'))))
            else none := rfl
        rw [hconn]
        split <;> simp
  · rfl
  · intro c cs hp hq
    rw [primsList, getInternalList, List.filter_append, List.filterMap_append, hp, hq]

/-- C2: the geometry pass emits exactly one `ConnectorSegment` for every
internal node with at least two children — placed at `x` = that node's
absolute time and spanning `y` from the minimum to the maximum vertical
position of its immediate children — and zero for every internal node
with exactly one child, so the connector count equals the number of
internal nodes with at least two children. -/
theorem C2_connector_segments :
    (∀ t : BT, (prims t).filter isConnector = specConnectors t) ∧
    (∀ t : BT, ((prims t).filter isConnector).length =
      (getInternal t).countP fun n => decide (2 ≤ n.children.length)) := by
  constructor
  · intro t
    rw [specConnectors_eq]
    exact prims_filter_connector.1 t
  · intro t
    rw [prims_filter_connector.1 t, length_filterMap_countP]
    apply List.countP_congr
    intro n _
    unfold connOf
    by_cases h : 2 ≤ n.children.length
    · simp [h]
    · simp [h]

theorem absTimeOf_setAbs (a : ℚ) (t : BT) : absTimeOf (setAbs a t) = a := by
  cases t with
  | node d cs => rw [setAbs]; rfl

theorem absTimes_setAbs :
    (∀ t : BT, ∀ a : ℚ, absTimes (setAbs a t) = specCums a t) ∧
    (∀ cs : List BT, ∀ a : ℚ,
      (allNodesList (setAbsList a cs)).map absTimeOf = specCumsList a cs) := by
  refine BT.indBoth _ _ ?_ ?_ ?_
  · intro d cs hq a
    rw [setAbs, specCums]
    unfold absTimes
    rw [allNodes, List.map_cons, hq a]
    rfl
  · intro a
    rfl
  · intro c cs hp hq a
    rw [setAbsList, specCumsList, allNodesList, List.map_append, hq a]
    have := hp (a + lenOf c)
    unfold absTimes at this
    rw [this]

theorem leafAbs_setAbs :
    (∀ t : BT, ∀ a : ℚ, (getExternal (setAbs a t)).map absTimeOf = leafDepths a t) ∧
    (∀ cs : List BT, ∀ a : ℚ,
      (getExternalList (setAbsList a cs)).map absTimeOf = leafDepthsList a cs) := by
  refine BT.indBoth _ _ ?_ ?_ ?_
  · intro d cs hq a
    cases cs with
    | nil =>
        rw [setAbs, setAbsList, leafDepths, getExternal]
        simp [absTimeOf, BT.data]
    | cons c cs' =>
        rw [setAbs, setAbsList, leafDepths, getExternal]
        rw [← setAbsList]
        exact hq a
  · intro a
    rfl
  · intro c cs hp hq a
    rw [setAbsList, leafDepthsList, getExternalList, List.map_append, hp (a + lenOf c), hq a]

theorem timeProp_eq_setAbs_zero (t : BT) : timeProp t = setAbs 0 t := by
  unfold timeProp setAbsoluteTime
  rw [sub_self]

/-- C1 counterexample: on the two-node tree whose leaf sits at branch
length 1 from the root, the published absolute times are `[0, 1]` while
`tree_height - cumulative distance` is `[1, 0]` — so the claimed
formula `absolute_time = tree_height - cumulative distance` is false
(it contradicts the claim's own consequence that the root's absolute
time is 0). -/
theorem C1_counterexample :
    ¬ absTimes (timeProp exUnit) =
        (specCums 0 exUnit).map fun c => treeHeight exUnit - c := by
  intro h
  simp [absTimes, timeProp, setAbsoluteTime, exUnit, treeHeight, leafDepths, leafDepthsList,
    lenOf, BT.data, maxQ, setAbs, setAbsList, allNodes, allNodesList, absTimeOf,
    specCums, specCumsList] at h

/-- C1 amended: after time propagation each node's absolute time equals
its cumulative root-to-node distance (the anchoring places the most
recent tip at `tree_height`, not the root) — hence for every tree the
root's absolute time is 0 and the maximum absolute time over the leaves
equals `tree_height`, and a single-node tree has `tree_height` 0 with
that node's absolute time 0. -/
theorem C1_time_anchoring :
    (∀ t : BT,
      absTimes (timeProp t) = specCums 0 t ∧
      absTimeOf (timeProp t) = 0 ∧
      maxQ ((getExternal (timeProp t)).map absTimeOf) = treeHeight t) ∧
    (∀ d : NodeData,
      treeHeight (BT.node d []) = 0 ∧ absTimeOf (timeProp (BT.node d [])) = 0) := by
  constructor
  · intro t
    refine ⟨?_, ?_, ?_⟩
    · rw [timeProp_eq_setAbs_zero, absTimes_setAbs.1 t 0]
    · rw [timeProp_eq_setAbs_zero, absTimeOf_setAbs]
    · rw [timeProp_eq_setAbs_zero, leafAbs_setAbs.1 t 0, treeHeight]
  · intro d
    constructor
    · rw [treeHeight, leafDepths]
      rfl
    · rw [timeProp_eq_setAbs_zero, absTimeOf_setAbs]

theorem drawT_counter :
    (∀ t : BT, ∀ s : ℕ, (drawT s t).2 = s + lc t) ∧
    (∀ cs : List BT, ∀ s : ℕ, (drawList s cs).2 = s + lcList cs) := by
  refine BT.indBoth _ _ ?_ ?_ ?_
  · intro d cs hq s
    cases cs with
    | nil => rfl
    | cons c cs' =>
        simp only [drawT, lc]
        exact hq s
  · intro s
    rfl
  · intro c cs hp hq s
    simp only [drawList, lcList, hq, hp]
    omega

theorem drawT_leafYs :
    (∀ t : BT, ∀ s : ℕ, (getExternal (drawT s t).1).map yOf =
      (List.range' s (lc t)).map fun (i : ℕ) => (i : ℚ)) ∧
    (∀ cs : List BT, ∀ s : ℕ, (getExternalList (drawList s cs).1).map yOf =
      (List.range' s (lcList cs)).map fun (i : ℕ) => (i : ℚ)) := by
  refine BT.indBoth _ _ ?_ ?_ ?_
  · intro d cs hq s
    cases cs with
    | nil =>
        simp only [drawT, lc]
        simp [getExternal, yOf, BT.data, List.range']
    | cons c cs' =>
        have hq' := hq s
        simp only [drawList] at hq'
        simp only [drawT, drawList, lc, getExternal]
        exact hq'
  · intro s
    rfl
  · intro c cs hp hq s
    have hcnt : (drawT s c).2 = s + lc c := drawT_counter.1 c s
    simp only [drawList, lcList, getExternalList, List.map_append, hp s, hq, hcnt]
    rw [← List.map_append, List.range'_append_1, Nat.add_comm (lcList cs) (lc c)]

theorem lc_setAbs :
    (∀ t : BT, ∀ a : ℚ, lc (setAbs a t) = lc t) ∧
    (∀ cs : List BT, ∀ a : ℚ, lcList (setAbsList a cs) = lcList cs) := by
  refine BT.indBoth _ _ ?_ ?_ ?_
  · intro d cs hq a
    cases cs with
    | nil => rfl
    | cons c cs' =>
        rw [setAbs, setAbsList, lc, lc, ← setAbsList]
        exact hq a
  · intro a
    rfl
  · intro c cs hp hq a
    rw [setAbsList, lcList, lcList, hp, hq]

theorem pipeline_leafYs (t : BT) :
    (getExternal (pipeline t)).map yOf = (List.range (lc t)).map fun (i : ℕ) => (i : ℚ) := by
  unfold pipeline drawPass
  rw [drawT_leafYs.1, timeProp_eq_setAbs_zero, lc_setAbs.1, List.range_eq_range']

theorem pairwise_lt_cast_range' (s n : ℕ) :
    List.Pairwise (· < ·) ((List.range' s n).map fun (i : ℕ) => (i : ℚ)) := by
  rw [List.pairwise_map]
  exact (List.pairwise_lt_range' s n).imp fun h => by exact_mod_cast h

/-- C5: for every tree, the number of emitted `TipLabel` primitives
equals the number of leaves, and the vertical positions the layout
assigns to the leaves, read in input (pre-order) leaf order, are the
slots `0, 1, 2, ...` — pairwise distinct and strictly increasing. -/
theorem C5_tip_labels (t : BT) :
    (tipLabels (pipeline t)).length = lc t ∧
    (getExternal (pipeline t)).map yOf = (List.range (lc t)).map (fun (i : ℕ) => (i : ℚ)) ∧
    List.Pairwise (· < ·) ((getExternal (pipeline t)).map yOf) := by
  refine ⟨?_, pipeline_leafYs t, ?_⟩
  · have hlen : (getExternal (pipeline t)).length = lc t := by
      have h := congrArg List.length (pipeline_leafYs t)
      simpa using h
    unfold tipLabels tipsSorted
    rw [List.length_map, sortByY_length, hlen]
  · rw [pipeline_leafYs t, List.range_eq_range']
    exact pairwise_lt_cast_range' 0 (lc t)

theorem insertY_perm (x : BT) (l : List BT) : List.Perm (insertY x l) (x :: l) := by
  induction l with
  | nil => exact List.Perm.refl _
  | cons b bs ih =>
      unfold insertY
      by_cases h : yOf x ≤ yOf b
      · simp [h]
      · simp only [h, if_false]
        exact (ih.cons b).trans (List.Perm.swap x b bs)

theorem sortByY_perm (l : List BT) : List.Perm (sortByY l) l := by
  induction l with
  | nil => exact List.Perm.refl _
  | cons b bs ih =>
      unfold sortByY
      exact (insertY_perm b (sortByY bs)).trans (ih.cons b)

theorem insertY_sorted (x : BT) (l : List BT)
    (hl : List.Pairwise (fun a b => yOf a ≤ yOf b) l) :
    List.Pairwise (fun a b => yOf a ≤ yOf b) (insertY x l) := by
  induction l with
  | nil => simp [insertY]
  | cons b bs ih =>
      rcases List.pairwise_cons.mp hl with ⟨hb, hbs⟩
      unfold insertY
      by_cases h : yOf x ≤ yOf b
      · simp only [h, if_true]
        refine List.pairwise_cons.mpr ⟨?_, hl⟩
        intro z hz
        rcases List.mem_cons.mp hz with rfl | hz
        · exact h
        · exact le_trans h (hb z hz)
      · simp only [h, if_false]
        refine List.pairwise_cons.mpr ⟨?_, ih hbs⟩
        intro z hz
        have hz' := (insertY_perm x bs).mem_iff.mp hz
        rcases List.mem_cons.mp hz' with rfl | hz'
        · exact le_of_not_le h
        · exact hb z hz'

theorem sortByY_sorted (l : List BT) :
    List.Pairwise (fun a b => yOf a ≤ yOf b) (sortByY l) := by
  induction l with
  | nil => simp [sortByY]
  | cons b bs ih => exact insertY_sorted b (sortByY bs) ih

theorem pipeline_leafY_pairwise (t : BT) :
    List.Pairwise (fun a b => yOf a < yOf b) (getExternal (pipeline t)) := by
  have h : List.Pairwise (· < ·) ((getExternal (pipeline t)).map yOf) := by
    rw [pipeline_leafYs t, List.range_eq_range']
    exact pairwise_lt_cast_range' 0 (lc t)
  exact List.pairwise_map.mp h

/-- C10: tip labels are emitted in strictly increasing order of the
leaves' vertical positions — the builder sorts the leaves by `y` before
emitting their labels, and the layout's leaf positions are pairwise
distinct, so the emitted `y` sequence strictly increases. -/
theorem C10_tip_label_order (t : BT) :
    List.Pairwise (· < ·) ((tipLabels (pipeline t)).map primY) := by
  have hmap : (tipLabels (pipeline t)).map primY = (tipsSorted (pipeline t)).map yOf := by
    unfold tipLabels
    rw [List.map_map]
    rfl
  rw [hmap]
  have hne : List.Pairwise (fun a b => yOf a ≠ yOf b) (getExternal (pipeline t)) :=
    (pipeline_leafY_pairwise t).imp ne_of_lt
  have hne' : List.Pairwise (fun a b => yOf a ≠ yOf b) (tipsSorted (pipeline t)) :=
    (List.Perm.pairwise_iff (fun h => Ne.symm h)
      (sortByY_perm (getExternal (pipeline t)))).mpr hne
  have hle := sortByY_sorted (getExternal (pipeline t))
  rw [List.pairwise_map]
  exact (hle.and hne').imp fun h => lt_of_le_of_ne h.1 h.2

theorem lenOf_scrub (t : BT) : lenOf (scrub t) = lenOf t := by
  cases t with
  | node d cs => rw [scrub]; rfl

theorem lenOf_setAbs (a : ℚ) (t : BT) : lenOf (setAbs a t) = lenOf t := by
  cases t with
  | node d cs => rw [setAbs]; rfl

theorem setAbs_scrub :
    (∀ t : BT, ∀ a : ℚ, setAbs a (scrub t) = scrubY (setAbs a t)) ∧
    (∀ cs : List BT, ∀ a : ℚ, setAbsList a (scrubList cs) = scrubYList (setAbsList a cs)) := by
  refine BT.indBoth _ _ ?_ ?_ ?_
  · intro d cs hq a
    rw [scrub, setAbs, setAbs, scrubY, hq a]
  · intro a
    rfl
  · intro c cs hp hq a
    rw [scrubList, setAbsList, setAbsList, scrubYList, lenOf_scrub, hp, hq]

theorem scrubY_idem :
    (∀ t : BT, scrubY (scrubY t) = scrubY t) ∧
    (∀ cs : List BT, scrubYList (scrubYList cs) = scrubYList cs) := by
  refine BT.indBoth _ _ ?_ ?_ ?_
  · intro d cs hq
    rw [scrubY, scrubY, hq]
  · rfl
  · intro c cs hp hq
    rw [scrubYList, scrubYList, hp, hq]

theorem setAbs_setAbs :
    (∀ t : BT, ∀ a b : ℚ, setAbs a (setAbs b t) = setAbs a t) ∧
    (∀ cs : List BT, ∀ a b : ℚ, setAbsList a (setAbsList b cs) = setAbsList a cs) := by
  refine BT.indBoth _ _ ?_ ?_ ?_
  · intro d cs hq a b
    rw [setAbs, setAbs, setAbs, hq a b]
  · intro a b
    rfl
  · intro c cs hp hq a b
    rw [setAbsList, setAbsList, setAbsList, lenOf_setAbs, hp, hq]

theorem scrub_setAbs_eq :
    (∀ t : BT, ∀ a : ℚ, scrub (setAbs a t) = scrub t) ∧
    (∀ cs : List BT, ∀ a : ℚ, scrubList (setAbsList a cs) = scrubList cs) := by
  refine BT.indBoth _ _ ?_ ?_ ?_
  · intro d cs hq a
    rw [setAbs, scrub, scrub, hq a]
  · intro a
    rfl
  · intro c cs hp hq a
    rw [setAbsList, scrubList, scrubList, hp, hq]

theorem scrub_drawT :
    (∀ t : BT, ∀ s : ℕ, scrub (drawT s t).1 = scrub t) ∧
    (∀ cs : List BT, ∀ s : ℕ, scrubList (drawList s cs).1 = scrubList cs) := by
  refine BT.indBoth _ _ ?_ ?_ ?_
  · intro d cs hq s
    cases cs with
    | nil => rfl
    | cons c cs' =>
        have hq' := hq s
        simp only [drawList] at hq'
        simp only [drawT, drawList, scrub]
        rw [hq']
  · intro s
    rfl
  · intro c cs hp hq s
    simp only [drawList, scrubList, hp, hq]

theorem drawT_congr :
    (∀ u : BT, ∀ v : BT, scrubY u = scrubY v → ∀ s : ℕ, drawT s u = drawT s v) ∧
    (∀ us : List BT, ∀ vs : List BT, scrubYList us = scrubYList vs →
      ∀ s : ℕ, drawList s us = drawList s vs) := by
  refine BT.indBoth _ _ ?_ ?_ ?_
  · intro d cs hq v h s
    cases v with
    | node d' cs' =>
        rw [scrubY, scrubY] at h
        injection h with h1 h2
        cases d
        cases d'
        simp only [NodeData.mk.injEq] at h1
        obtain ⟨e1, e2, e3, e4, -⟩ := h1
        subst e1; subst e2; subst e3; subst e4
        cases cs with
        | nil =>
            cases cs' with
            | nil => rfl
            | cons c' cs'' => simp [scrubYList] at h2
        | cons c cs0 =>
            cases cs' with
            | nil => simp [scrubYList] at h2
            | cons c' cs'' =>
                have hdl := hq (c' :: cs'') h2 s
                simp only [drawT, hdl]
  · intro vs h s
    cases vs with
    | nil => rfl
    | cons v vs' => simp [scrubYList] at h
  · intro c cs hp hq vs h s
    cases vs with
    | nil => simp [scrubYList] at h
    | cons v vs' =>
        rw [scrubYList, scrubYList] at h
        injection h with h1 h2
        have hc := hp v h1 s
        have hcs := hq vs' h2 (drawT s c).2
        simp only [drawList, hc, hcs]
        rw [hc] at hcs
        rw [hcs]

/-- C9: time propagation and vertical layout are pure and deterministic
in the constructed tree: re-running time propagation, or the whole
two-pass pipeline, on an already-propagated tree reproduces it exactly,
and the pipeline's result is unchanged when the derived coordinate
fields start from any other state (here: zeroed by `scrub`) — the
coordinates are a function of topology, branch lengths and input order
alone. -/
theorem C9_determinism (t : BT) :
    timeProp (timeProp t) = timeProp t ∧
    pipeline (pipeline t) = pipeline t ∧
    pipeline (scrub t) = pipeline t := by
  have hpipe : ∀ u : BT, pipeline (scrub u) = pipeline u := by
    intro u
    unfold pipeline drawPass
    rw [timeProp_eq_setAbs_zero, timeProp_eq_setAbs_zero, setAbs_scrub.1,
      drawT_congr.1 (scrubY (setAbs 0 u)) (setAbs 0 u) (scrubY_idem.1 _) 0]
  refine ⟨?_, ?_, hpipe t⟩
  · rw [timeProp_eq_setAbs_zero t, timeProp_eq_setAbs_zero (setAbs 0 t), setAbs_setAbs.1]
  · have hscrub : scrub (pipeline t) = scrub t := by
      unfold pipeline drawPass
      rw [timeProp_eq_setAbs_zero, scrub_drawT.1, scrub_setAbs_eq.1]
    calc pipeline (pipeline t) = pipeline (scrub (pipeline t)) := (hpipe (pipeline t)).symm
      _ = pipeline (scrub t) := by rw [hscrub]
      _ = pipeline t := hpipe t

end BeastViz


